import Mathlib

/-!
Shallow embedding of the ingestion and reconciliation pipeline of
`build_weather_page.py` (vaerstasjon repository), together with proofs
checking the specification's claims about it.

Conventions of the embedding:
* timestamps are whole seconds (`ℕ`);
* float measurement columns become `Option ℚ` (a `none` models a pandas `NaN`);
* `pandas.sort_values` is modelled by the stable `List.insertionSort` on the key;
* each function mirrors one function or one code block of the source, named after it.
-/

namespace Vaerstasjon

/-- A row of a rain-classified intake table (the `parse_station_csv` output of kind
`rain`): `Time` in seconds plus the optional `rain_rate_mmh` and `rain_raw` columns.
A column that is absent from the CSV is modelled as an all-`none` field. -/
structure RainRow where
  time : ℕ
  rate : Option ℚ
  raw : Option ℚ
deriving DecidableEq, Repr

/-- Key order used by `sort_values("Time")` on rain rows. -/
def rainLE (a b : RainRow) : Prop := a.time ≤ b.time

instance : DecidableRel rainLE := fun a b => inferInstanceAs (Decidable (a.time ≤ b.time))

/-- The `rain_df.sort_values("Time")` call at the top of `rain_to_interval_mm`. -/
def sortRain (l : List RainRow) : List RainRow := List.insertionSort rainLE l

/-- Pair every element of a list with its predecessor (`none` before the head), the
access pattern of `Series.diff()`. -/
def withPrev {α : Type} : List α → Option α → List (Option α × α)
  | [], _ => []
  | x :: xs, p => (p, x) :: withPrev xs (some x)

/-- Time delta from the previous row in hours:
`Time.diff().dt.total_seconds().div(3600.0).fillna(0)`. -/
def dtHours : Option RainRow → RainRow → ℚ
  | none, _ => 0
  | some p, r => ((r.time : ℚ) - (p.time : ℚ)) / 3600

/-- Rate branch of `rain_to_interval_mm`: `mm = rain_rate_mmh.fillna(0) * dt` followed
by `mm[mm < 0] = 0` (clamping, written as `max 0`). -/
def rateOut (rs : List RainRow) : List (Option ℚ) :=
  (withPrev rs none).map (fun pr => some (max 0 ((pr.2.rate.getD 0) * dtHours pr.1 pr.2)))

/-- One entry of `rain_raw.diff()`: the difference between a row's raw value and its
predecessor's, missing for the first row and whenever either endpoint is missing. -/
def diffStep : Option RainRow × RainRow → Option ℚ
  | (none, _) => none
  | (some p, r) =>
    match p.raw, r.raw with
    | some a, some b => some (b - a)
    | _, _ => none

/-- `rain_raw.diff()` over the whole column. -/
def rawDiffs (rs : List RainRow) : List (Option ℚ) :=
  (withPrev rs none).map diffStep

/-- One entry of `dif.where(dif >= 0, 0)` followed by `fillna(0)`: a missing or negative
difference becomes `0`, a non-negative one is kept. -/
def whereNonneg : Option ℚ → ℚ
  | some v => if 0 ≤ v then v else 0
  | none => 0

/-- Cumulative-counter branch of `rain_to_interval_mm`. -/
def cumulOut (rs : List RainRow) : List (Option ℚ) :=
  (rawDiffs rs).map (fun d => some (whereNonneg d))

/-- `(dif.fillna(0) >= 0).mean()`: the fraction of all rows — the first row and the
rows with a missing difference included, their difference filled with `0` — whose
difference is non-negative. -/
def nondecFrac (rs : List RainRow) : ℚ :=
  (((rawDiffs rs).map (fun d => decide ((0 : ℚ) ≤ d.getD 0))).count true : ℚ) /
    (rs.length : ℚ)

/-- Shallow embedding of `rain_to_interval_mm` (build_weather_page.py lines 667-688). -/
def rainToIntervalMm (rows : List RainRow) : List (Option ℚ) :=
  let rs := sortRain rows
  if rs.any (fun r => r.rate.isSome) then
    rateOut rs
  else if rs.any (fun r => r.raw.isSome) then
    if 9 / 10 < nondecFrac rs then cumulOut rs
    else rs.map (fun r => r.raw)
  else
    rs.map (fun _ => none)

/-- The raw-counter table of the spec's counter-reset example: cumulative values
`[10, 12, 3, 7]` sampled a minute apart, with no rate column. -/
def resetTable : List RainRow :=
  [⟨0, none, some 10⟩, ⟨60, none, some 12⟩, ⟨120, none, some 3⟩, ⟨180, none, some 7⟩]

/-- The table is ascending by `Time`, as the callers of `rain_to_interval_mm`
guarantee (they sort before calling, and the function itself re-sorts). -/
def timeSorted (rs : List RainRow) : Prop := List.Sorted rainLE rs

instance (rs : List RainRow) : Decidable (timeSorted rs) :=
  List.instDecidablePairwise rs

/-- The non-missing successive differences of the raw column — the population over
which the claim's own "at least 90% non-negative" test is stated. -/
def presentDiffs (rs : List RainRow) : List ℚ := (rawDiffs rs).filterMap id

/-- The claim's cumulative-counter test, in the claim's own words: at least 90% of the
non-missing successive differences are non-negative. -/
def claimCumulCond (rs : List RainRow) : Prop :=
  9 / 10 ≤ (((presentDiffs rs).filter (fun d => decide ((0 : ℚ) ≤ d))).length : ℚ) /
    ((presentDiffs rs).length : ℚ)

/-- A raw column `[5, 3, NaN × 9]` sampled a minute apart: its only non-missing
difference is negative, yet 10 of the 11 zero-filled differences are non-negative. -/
def sparseTable : List RainRow :=
  [⟨0, none, some 5⟩, ⟨60, none, some 3⟩, ⟨120, none, none⟩, ⟨180, none, none⟩,
   ⟨240, none, none⟩, ⟨300, none, none⟩, ⟨360, none, none⟩, ⟨420, none, none⟩,
   ⟨480, none, none⟩, ⟨540, none, none⟩, ⟨600, none, none⟩]

/-- Index-oriented restatement of `rain_raw.diff()` at row `i`. -/
def rawDiffAt (rs : List RainRow) (i : ℕ) : Option ℚ :=
  if i = 0 then none
  else
    match rs[i - 1]?, rs[i]? with
    | some p, some r =>
      match p.raw, r.raw with
      | some a, some b => some (b - a)
      | _, _ => none
    | _, _ => none

/-- Index-oriented restatement of the time delta in hours at row `i` (0 for the
first row, mirroring the `fillna(0)` on the diffed time column). -/
def dtHoursAt (rs : List RainRow) (i : ℕ) : ℚ :=
  if i = 0 then 0
  else
    match rs[i - 1]?, rs[i]? with
    | some p, some r => ((r.time : ℚ) - (p.time : ℚ)) / 3600
    | _, _ => 0

/-- Total rainfall of a normalized column, missing entries contributing nothing. -/
def sumMm (l : List (Option ℚ)) : ℚ := (l.map (fun d => d.getD 0)).sum

/-- Raw-counter comparison between rows (missing raw values read as 0). -/
def rawLE (a b : RainRow) : Prop := a.raw.getD 0 ≤ b.raw.getD 0

instance : DecidableRel rawLE := fun a b =>
  inferInstanceAs (Decidable (a.raw.getD 0 ≤ b.raw.getD 0))

/-- A strictly increasing cumulative counter `[1, 2, 4]` sampled a minute apart. -/
def cumulTable : List RainRow :=
  [⟨0, none, some 1⟩, ⟨60, none, some 2⟩, ⟨120, none, some 4⟩]

/-- The spec's rate example: 0 mm/h at `t0`, then 4 mm/h thirty minutes later. -/
def rateTable : List RainRow :=
  [⟨0, some 0, none⟩, ⟨1800, some 4, none⟩]

/-- A rate table whose second sample has a missing rate. -/
def rateGapTable : List RainRow :=
  [⟨0, some 2, none⟩, ⟨1800, none, none⟩]

/-- A unified archive record: one row of `store/weather.parquet`, produced by the
merge step and consumed by the extract generator. -/
structure Reading where
  time : ℕ
  temp : Option ℚ
  hum : Option ℚ
  wind : Option ℚ
  heading : Option ℚ
  rain : Option ℚ
deriving DecidableEq, Repr

/-- Key order used by `sort_values("Time")` on archive readings. -/
def readLE (a b : Reading) : Prop := a.time ≤ b.time

instance : DecidableRel readLE := fun a b => inferInstanceAs (Decidable (a.time ≤ b.time))

instance : IsTotal Reading readLE := ⟨fun a b => Nat.le_total a.time b.time⟩

instance : IsTrans Reading readLE := ⟨fun _ _ _ => Nat.le_trans⟩

/-- `master2.sort_values("Time")` on archive readings. -/
def sortReadings (l : List Reading) : List Reading := List.insertionSort readLE l

/-- `drop_duplicates(subset=["Time"], keep="last")`: a row is kept exactly when no
later row shares its timestamp. -/
def dedupKeepLast : List Reading → List Reading
  | [] => []
  | x :: xs =>
    if xs.any (fun y => y.time == x.time) then dedupKeepLast xs
    else x :: dedupKeepLast xs

/-- Master-store reconciliation (`ingest_import_folder` lines 808-809): concatenate
archive and batch, sort ascending by `Time`, drop duplicate timestamps keeping the
last occurrence. -/
def mergeMaster (master batch : List Reading) : List Reading :=
  dedupKeepLast (sortReadings (master ++ batch))

/-- `dedup_removed = (before + imported_rows) - after` (lines 805-812). -/
def dedupRemoved (master batch : List Reading) : ℕ :=
  master.length + batch.length - (mergeMaster master batch).length

/-- The timestamp column of a list of readings. -/
def timesOf (l : List Reading) : List ℕ := l.map (fun r => r.time)

/-- A one-row prior archive used to exercise the merge. -/
def master3 : List Reading := [⟨0, some 1, none, none, none, none⟩]

/-- A one-row batch colliding with `master3` on timestamp 0. -/
def batch3 : List Reading := [⟨0, some 2, none, none, none, none⟩]

/-- A row of a meteorological intake table (the `parse_station_csv` output of kind
`met`): `Time` in seconds plus the optional value columns. -/
structure MetRow where
  time : ℕ
  temp : Option ℚ
  hum : Option ℚ
  wind : Option ℚ
  heading : Option ℚ
deriving DecidableEq, Repr

/-- Key order used by `sort_values("Time")` on meteorological rows. -/
def metLE (a b : MetRow) : Prop := a.time ≤ b.time

instance : DecidableRel metLE := fun a b => inferInstanceAs (Decidable (a.time ≤ b.time))

instance : IsTotal MetRow metLE := ⟨fun a b => Nat.le_total a.time b.time⟩

instance : IsTrans MetRow metLE := ⟨fun _ _ _ => Nat.le_trans⟩

/-- `sort_values("Time")` on meteorological rows. -/
def sortMet (l : List MetRow) : List MetRow := List.insertionSort metLE l

/-- An intake CSV of the meteorological kind: its filename, represented by its rank
in the lexicographic order that `sorted()` puts on the paths, and its parsed rows. -/
structure IntakeFile where
  name : ℕ
  rows : List MetRow
deriving DecidableEq

/-- Filename order of `sorted([p for p in IMPORT_DIR.glob("*.csv")])`. -/
def fileLE (a b : IntakeFile) : Prop := a.name ≤ b.name

instance : DecidableRel fileLE := fun a b => inferInstanceAs (Decidable (a.name ≤ b.name))

/-- The filename-sorted intake file list. -/
def sortFiles (fs : List IntakeFile) : List IntakeFile := List.insertionSort fileLE fs

/-- `pd.concat(met_parts)`: the rows of every same-kind intake file, appended while
iterating the filename-sorted file list, each file's rows already time-sorted by
`parse_station_csv`. -/
def catRows (fs : List IntakeFile) : List MetRow :=
  (sortFiles fs).flatMap (fun f => sortMet f.rows)

/-- `drop_duplicates(subset=["Time"])` with the default `keep="first"`: a row is kept
exactly when its raw timestamp has not occurred earlier. -/
def dedupKeepFirstAux (seen : List ℕ) : List MetRow → List MetRow
  | [] => []
  | x :: xs =>
    if x.time ∈ seen then dedupKeepFirstAux seen xs
    else x :: dedupKeepFirstAux (x.time :: seen) xs

/-- The met-stream concatenation step of `ingest_import_folder` (line 739): concat
the files in filename-sorted order, drop rows whose exact raw timestamp already
occurred (first occurrence wins), then sort by time. The rain stream (line 744) uses
the identical recipe. -/
def ingestConcat (fs : List IntakeFile) : List MetRow :=
  sortMet (dedupKeepFirstAux [] (catRows fs))

/-- `dt.floor("min")`: a timestamp floored to the start of its minute. -/
def minuteKey (t : ℕ) : ℕ := t / 60 * 60

/-- The rows of a stream that fall in the minute beginning at `k`. -/
def minuteGroup (rs : List MetRow) (k : ℕ) : List MetRow :=
  rs.filter (fun r => minuteKey r.time == k)

/-- `groupby("Time_key")["windspeed_kmh"].idxmax()` inside one minute group: the
first row attaining the maximal present wind speed, skipping missing values; `none`
when every wind value of the group is missing (a case outside the claims — pandas
raises there instead of producing a row). -/
def pickMaxWind : List MetRow → Option MetRow
  | [] => none
  | r :: rs =>
    match r.wind with
    | none => pickMaxWind rs
    | some w =>
      match pickMaxWind rs with
      | none => some r
      | some s => if w < s.wind.getD 0 then some s else some r

/-- The last row of a minute group in original time order — what
`drop_duplicates(subset=["Time_key"], keep="last")` retains for the non-wind
fields. -/
def lastOf (g : List MetRow) : MetRow := g.getLast?.getD ⟨0, none, none, none, none⟩

/-- One aligned record: the minute key becomes the new `Time`, the non-wind fields
come from the last row of the minute, the wind/heading pair from the max-wind row. -/
def mkAlignedWind (rs : List MetRow) (k : ℕ) : MetRow :=
  let l := lastOf (minuteGroup rs k)
  match pickMaxWind (minuteGroup rs k) with
  | some m => ⟨k, l.temp, l.hum, m.wind, m.heading⟩
  | none => ⟨k, l.temp, l.hum, none, none⟩

/-- The distinct minute keys of a stream, in order of first appearance. -/
def minuteKeys (rs : List MetRow) : List ℕ := (rs.map (fun r => minuteKey r.time)).dedup

/-- Minute alignment of the meteorological stream (`ingest_import_folder` lines
753-768): sort by time, floor times to the minute, and emit one record per minute
key — wind/heading from the row with maximal wind speed when the frame has any wind
data, every other field from the last row of the minute. -/
def alignMet (rows : List MetRow) : List MetRow :=
  let rs := sortMet rows
  if rs.any (fun r => r.wind.isSome) then
    (minuteKeys rs).map (mkAlignedWind rs)
  else
    (minuteKeys rs).map (fun k =>
      let l := lastOf (minuteGroup rs k)
      ⟨k, l.temp, l.hum, l.wind, l.heading⟩)

/-- The two-row stream of the spec's minute-alignment example: readings at 12:00:05
and 12:00:40 (seconds of day), wind speeds 3 and 7, headings 90 and 180. -/
def metExample : List MetRow :=
  [⟨43205, some 1, none, some 3, some 90⟩, ⟨43240, some 2, none, some 7, some 180⟩]

/-- Two intake files, listed out of filename order, both containing a row with the
raw timestamp 100 but different temperatures. -/
def files9 : List IntakeFile :=
  [⟨2, [⟨100, some 2, none, none, none⟩]⟩, ⟨1, [⟨100, some 1, none, none, none⟩]⟩]

/-- Lower-case one ASCII character, as Python's `str.lower()` does on the header
names the classifier touches. -/
def lowChar (c : Char) : Char :=
  if 'A' ≤ c ∧ c ≤ 'Z' then Char.ofNat (c.toNat + 32) else c

/-- Lower-case a header name. -/
def lowerName (s : List Char) : List Char := s.map lowChar

/-- Does `kw` start the text? -/
def startsWith : List Char → List Char → Bool
  | _, [] => true
  | [], _ :: _ => false
  | c :: cs, k :: ks => c == k && startsWith cs ks

/-- Python's substring test `kw in hay`. -/
def containsKw : List Char → List Char → Bool
  | [], kw => kw.isEmpty
  | c :: cs, kw => startsWith (c :: cs) kw || containsKw cs kw

/-- `find_col` (lines 592-598): the first column whose lower-cased name has one of
the keywords as a substring (columns in the outer loop, keywords in the inner). -/
def findCol (cols : List (List Char)) (kws : List (List Char)) : Option (List Char) :=
  cols.find? (fun c => kws.any (fun kw => containsKw (lowerName c) kw))

/-- How the classifier located the timestamp: the literal `Time` column, or a
date-matching plus a time-matching column to be concatenated. -/
inductive TimeSpec where
  | direct : TimeSpec
  | combined : List Char → List Char → TimeSpec
deriving DecidableEq

/-- The exact column name `Time` tested by `"Time" not in df.columns`. -/
def timeColName : List Char := ['T', 'i', 'm', 'e']

/-- The fallback keyword `time`. -/
def kwTime : List Char := ['t', 'i', 'm', 'e']

/-- The fallback keyword `date`. -/
def kwDate : List Char := ['d', 'a', 't', 'e']

/-- The timestamp-location logic of `parse_station_csv` (lines 604-611): an exact,
case-sensitive `Time` column, else both a date column and a time column found by
case-insensitive substring match; `none` models the `MissingTimeColumn` failure. -/
def locateTimeColumn (cols : List (List Char)) : Option TimeSpec :=
  if timeColName ∈ cols then some TimeSpec.direct
  else
    match findCol cols [kwDate], findCol cols [kwTime] with
    | some d, some t => some (TimeSpec.combined d t)
    | _, _ => none

/-- The header `time`, lower-case. -/
def hdrTimeLower : List Char := ['t', 'i', 'm', 'e']

/-- The header `temperature`. -/
def hdrTemperature : List Char := ['t', 'e', 'm', 'p', 'e', 'r', 'a', 't', 'u', 'r', 'e']

/-- A snow-ledger record: one row of `store/snow.parquet`. -/
structure SnowRec where
  date : ℕ
  cm : Option ℚ
deriving DecidableEq

/-- Key order on snow records (`sort_values("Time")` keyed by normalized date). -/
def snowLE (a b : SnowRec) : Prop := a.date ≤ b.date

instance : DecidableRel snowLE := fun a b => inferInstanceAs (Decidable (a.date ≤ b.date))

/-- `drop_duplicates(subset=["Time"], keep="last")` on snow records. -/
def dedupSnowKeepLast : List SnowRec → List SnowRec
  | [] => []
  | x :: xs =>
    if xs.any (fun y => y.date == x.date) then dedupSnowKeepLast xs
    else x :: dedupSnowKeepLast xs

/-- The snow-ledger merge of `ingest_snow_file` (lines 918-922): same sort + dedup
keep-last recipe as the weather archive, keyed by date. -/
def mergeSnow (master out : List SnowRec) : List SnowRec :=
  dedupSnowKeepLast (List.insertionSort snowLE (master ++ out))

/-- `ingest_snow_file`: no `manuelt/sno.csv` (or an empty parse) leaves the snow
ledger untouched, otherwise the parsed rows are merged date-keyed last-wins. -/
def ingestSnowFile (master : List SnowRec) (snowCsv : Option (List SnowRec)) :
    List SnowRec :=
  match snowCsv with
  | none => master
  | some out => mergeSnow master out

/-- `master2["windheading"].ffill()` (lines 815-818): fill a missing heading with the
nearest preceding non-missing one. -/
def ffillHeading : List Reading → Option ℚ → List Reading
  | [], _ => []
  | r :: rs, prev =>
    match r.heading with
    | some h => r :: ffillHeading rs (some h)
    | none => ⟨r.time, r.temp, r.hum, r.wind, prev, r.rain⟩ :: ffillHeading rs prev

/-- `ingest_import_folder` seen from the archive: with no CSV files in `importer/`
(modelled as `none`) the function prints and returns `(0, 0)` before touching the
persisted archive; otherwise the minute-aligned batch is merged, deduplicated
keep-last and heading-forward-filled, and the row counts are reported. -/
def ingestImportFolder (master : List Reading) (intake : Option (List Reading)) :
    List Reading × ℕ × ℕ :=
  match intake with
  | none => (master, 0, 0)
  | some batch =>
    (ffillHeading (mergeMaster master batch) none, batch.length,
      dedupRemoved master batch)

/-- `Time.dt.strftime("%Y-%m")` of an epoch-second timestamp: its civil year and
month, by the standard days-to-civil conversion. -/
def monthOf (t : ℕ) : ℕ × ℕ :=
  let z := t / 86400 + 719468
  let era := z / 146097
  let doe := z % 146097
  let yoe := (doe - doe / 1460 + doe / 36524 - doe / 146096) / 365
  let y := yoe + era * 400
  let doy := doe - (365 * yoe + yoe / 4 - yoe / 100)
  let mp := (5 * doy + 2) / 153
  let m := if mp < 10 then mp + 3 else mp - 9
  (if m ≤ 2 then y + 1 else y, m)

/-- The distinct year-months of the archive, in ascending time order, as `groupby`
on the sorted frame yields them. -/
def monthKeys (l : List Reading) : List (ℕ × ℕ) :=
  ((sortReadings l).map (fun r => monthOf r.time)).dedup

/-- `generate_monthly_json`: one extract per calendar month of the stored archive,
each holding that month's readings sorted ascending by time. -/
def genMonthly (master : List Reading) : List ((ℕ × ℕ) × List Reading) :=
  (monthKeys master).map
    (fun m => (m, (sortReadings master).filter (fun r => monthOf r.time == m)))

/-- Descending order on month labels (`months.sort(key=..., reverse=True)`). -/
def labelGE (a b : ℕ × ℕ) : Prop := b.1 < a.1 ∨ (b.1 = a.1 ∧ b.2 ≤ a.2)

instance : DecidableRel labelGE := fun a b =>
  inferInstanceAs (Decidable (b.1 < a.1 ∨ (b.1 = a.1 ∧ b.2 ≤ a.2)))

/-- `write_manifest`: the month labels in descending order (the manifest's snow entry
is the constant filename `snow.json` and is not modelled). -/
def manifestOf (months : List ((ℕ × ℕ) × List Reading)) : List (ℕ × ℕ) :=
  List.insertionSort labelGE (months.map (fun m => m.1))

/-- The outputs of one `main` run over the modelled state. -/
structure PipelineOut where
  archive : List Reading
  importedRows : ℕ
  dedupCount : ℕ
  snow : List SnowRec
  months : List ((ℕ × ℕ) × List Reading)
  manifest : List (ℕ × ℕ)
deriving DecidableEq

/-- One full run of `main` (lines 953-976): ingest the weather intake into the
archive, ingest the snow ledger, regenerate every monthly extract and the manifest
from the resulting archive. -/
def runPipeline (archive : List Reading) (snow : List SnowRec)
    (intake : Option (List Reading)) (snowCsv : Option (List SnowRec)) : PipelineOut :=
  let ing := ingestImportFolder archive intake
  { archive := ing.1
    importedRows := ing.2.1
    dedupCount := ing.2.2
    snow := ingestSnowFile snow snowCsv
    months := genMonthly ing.1
    manifest := manifestOf (genMonthly ing.1) }

/-- C1 counterexample: on the raw counter `[10, 12, 3, 7]` the normalizer does not
return the claimed `[0, 2, 0, 4]`; only 3 of the 4 zero-filled differences are
non-negative (75% ≤ 90%), so the cumulative-counter branch is not taken. -/
theorem C1_counterexample :
    rainToIntervalMm resetTable ≠ [some 0, some 2, some 0, some 4] := by
  norm_num [rainToIntervalMm, sortRain, List.insertionSort, List.orderedInsert, rainLE,
    rateOut, cumulOut, rawDiffs, diffStep, nondecFrac, whereNonneg, withPrev, dtHours,
    resetTable]

/-- C1 amended: on the raw counter `[10, 12, 3, 7]` the share of non-negative
zero-filled differences is 75%, below the strict 90% threshold, so the raw values are
passed through unchanged as per-interval values: the output is `[10, 12, 3, 7]`. -/
theorem C1_amended_passthrough :
    rainToIntervalMm resetTable = [some 10, some 12, some 3, some 7] := by
  norm_num [rainToIntervalMm, sortRain, List.insertionSort, List.orderedInsert, rainLE,
    rateOut, cumulOut, rawDiffs, diffStep, nondecFrac, whereNonneg, withPrev, dtHours,
    resetTable]

theorem withPrev_length {α : Type} (xs : List α) (p : Option α) :
    (withPrev xs p).length = xs.length := by
  induction xs generalizing p with
  | nil => rfl
  | cons x xs ih => simp [withPrev, ih]

theorem withPrev_getElem? {α : Type} (xs : List α) (p : Option α) (i : ℕ) :
    (withPrev xs p)[i]? =
      (xs[i]?).map (fun x => (if i = 0 then p else xs[i - 1]?, x)) := by
  induction xs generalizing p i with
  | nil => simp [withPrev]
  | cons x xs ih =>
    cases i with
    | zero => simp [withPrev]
    | succ j =>
      simp only [withPrev, List.getElem?_cons_succ, ih]
      cases j with
      | zero => simp
      | succ k => simp

theorem rawDiffs_getElem? (rs : List RainRow) (i : ℕ) (hi : i < rs.length) :
    (rawDiffs rs)[i]? = some (rawDiffAt rs i) := by
  obtain ⟨r, hr⟩ : ∃ r, rs[i]? = some r := ⟨rs[i], (List.getElem?_eq_getElem hi)⟩
  unfold rawDiffs
  rw [List.getElem?_map, withPrev_getElem?, hr, rawDiffAt]
  cases i with
  | zero => simp [diffStep]
  | succ j =>
    simp only [Nat.succ_ne_zero, if_neg, reduceIte, Option.map_some, Nat.add_sub_cancel]
    obtain ⟨p, hp⟩ : ∃ p, rs[j]? = some p :=
      ⟨rs[j], List.getElem?_eq_getElem (Nat.lt_of_lt_of_le (Nat.lt_succ_self j) (Nat.le_of_lt hi))⟩
    rw [hp, hr]
    simp [diffStep]

theorem cumulOut_getElem? (rs : List RainRow) (i : ℕ) (hi : i < rs.length) :
    (cumulOut rs)[i]? = some (some (whereNonneg (rawDiffAt rs i))) := by
  unfold cumulOut
  rw [List.getElem?_map, rawDiffs_getElem? rs i hi]
  rfl

theorem rainToIntervalMm_of_sorted (rows : List RainRow) (hs : timeSorted rows) :
    rainToIntervalMm rows =
      if rows.any (fun r => r.rate.isSome) then rateOut rows
      else if rows.any (fun r => r.raw.isSome) then
        if 9 / 10 < nondecFrac rows then cumulOut rows
        else rows.map (fun r => r.raw)
      else rows.map (fun _ => none) := by
  unfold rainToIntervalMm sortRain
  rw [List.Sorted.insertionSort_eq hs]

theorem rainToIntervalMm_rate (rows : List RainRow) (hs : timeSorted rows)
    (hrate : ∃ r ∈ rows, r.rate.isSome) : rainToIntervalMm rows = rateOut rows := by
  rw [rainToIntervalMm_of_sorted rows hs, if_pos]
  simpa using hrate

theorem rainToIntervalMm_cumul (rows : List RainRow) (hs : timeSorted rows)
    (hnr : ∀ r ∈ rows, r.rate = none) (hraw : ∃ r ∈ rows, r.raw.isSome)
    (hcond : 9 / 10 < nondecFrac rows) : rainToIntervalMm rows = cumulOut rows := by
  rw [rainToIntervalMm_of_sorted rows hs, if_neg, if_pos, if_pos hcond]
  · simpa using hraw
  · simp only [List.any_eq_true, not_exists, not_and, Bool.not_eq_true]
    intro r hr
    simp [hnr r hr]

theorem rainToIntervalMm_passthrough (rows : List RainRow) (hs : timeSorted rows)
    (hnr : ∀ r ∈ rows, r.rate = none) (hraw : ∃ r ∈ rows, r.raw.isSome)
    (hcond : ¬ 9 / 10 < nondecFrac rows) :
    rainToIntervalMm rows = rows.map (fun r => r.raw) := by
  rw [rainToIntervalMm_of_sorted rows hs, if_neg, if_pos, if_neg hcond]
  · simpa using hraw
  · simp only [List.any_eq_true, not_exists, not_and, Bool.not_eq_true]
    intro r hr
    simp [hnr r hr]

/-- C2 counterexample: on the raw column `[5, 3, NaN × 9]` (no rate column, some raw
value present) the claim's test fails — 0% of the non-missing differences are
non-negative — so the claim demands pass-through; but the code's test counts the
first row and every missing difference as non-negative (10 of 11 rows, 90.9% > 90%),
takes the cumulative branch, and returns all zeros instead of the raw values. -/
theorem C2_counterexample :
    (∀ r ∈ sparseTable, r.rate = none) ∧ (∃ r ∈ sparseTable, r.raw.isSome) ∧
      ¬ claimCumulCond sparseTable ∧
      rainToIntervalMm sparseTable ≠ sparseTable.map (fun r => r.raw) := by
  refine ⟨by decide, by decide, ?_, ?_⟩
  · norm_num [claimCumulCond, presentDiffs, rawDiffs, diffStep, withPrev, sparseTable,
      List.filterMap_cons, List.filterMap_nil, List.filter]
  · norm_num [rainToIntervalMm, sortRain, List.insertionSort, List.orderedInsert, rainLE,
      rateOut, cumulOut, rawDiffs, diffStep, nondecFrac, whereNonneg, withPrev, dtHours,
      sparseTable]

/-- C2 amended: for every time-sorted rain table with no usable rate column but some
non-missing raw value, the normalizer treats the column as a cumulative counter —
row `i` becomes `max(0, diff_i)` with the first and every missing difference read as
0 — exactly when the fraction of rows whose zero-filled difference is non-negative
(counted over all rows, the first and the missing-valued ones included) strictly
exceeds 90%; otherwise the raw values pass through unchanged. -/
theorem C2_amended (rows : List RainRow) (hs : timeSorted rows)
    (hnr : ∀ r ∈ rows, r.rate = none) (hraw : ∃ r ∈ rows, r.raw.isSome) :
    (9 / 10 < nondecFrac rows →
      ∀ i < rows.length,
        (rainToIntervalMm rows)[i]? = some (some (whereNonneg (rawDiffAt rows i))))
    ∧ (¬ 9 / 10 < nondecFrac rows →
      rainToIntervalMm rows = rows.map (fun r => r.raw)) := by
  constructor
  · intro hcond i hi
    rw [rainToIntervalMm_cumul rows hs hnr hraw hcond]
    exact cumulOut_getElem? rows i hi
  · intro hcond
    exact rainToIntervalMm_passthrough rows hs hnr hraw hcond

/-- C2 witness: the strictly increasing counter `[1, 2, 4]` exercises the cumulative
branch; row 1 gets `max(0, 2 - 1) = 1`. -/
theorem C2_witness :
    timeSorted cumulTable ∧ (rainToIntervalMm cumulTable)[1]? = some (some 1) := by
  refine ⟨by decide, ?_⟩
  have h := (C2_amended cumulTable (by decide) (by decide) (by decide)).1
    (by norm_num [nondecFrac, rawDiffs, diffStep, withPrev, cumulTable]) 1 (by decide)
  rw [h]
  norm_num [rawDiffAt, whereNonneg, cumulTable]

theorem rateOut_getElem? (rs : List RainRow) (i : ℕ) (r : RainRow)
    (hr : rs[i]? = some r) :
    (rateOut rs)[i]? = some (some (max 0 (r.rate.getD 0 * dtHoursAt rs i))) := by
  unfold rateOut
  rw [List.getElem?_map, withPrev_getElem?, hr]
  cases i with
  | zero => simp [dtHours, dtHoursAt]
  | succ j =>
    have hj : j < rs.length := by
      rcases List.getElem?_eq_some_iff.mp hr with ⟨h, _⟩
      omega
    obtain ⟨p, hp⟩ : ∃ p, rs[j]? = some p := ⟨rs[j], List.getElem?_eq_getElem hj⟩
    simp only [Nat.succ_ne_zero, reduceIte, Nat.add_sub_cancel, hp, Option.map_some]
    simp [dtHours, dtHoursAt, hp, hr]

theorem count_true_of_all (l : List Bool) (h : ∀ b ∈ l, b = true) :
    l.count true = l.length := by
  induction l with
  | nil => rfl
  | cons b l ih =>
    rcases h b (List.mem_cons_self b l) with rfl
    simp [ih fun c hc => h c (List.mem_cons_of_mem _ hc)]

theorem rawDiffs_nonneg (xs : List RainRow) (p : Option RainRow)
    (hc : List.Chain' rawLE (p.toList ++ xs)) :
    ∀ d ∈ (withPrev xs p).map diffStep, 0 ≤ d.getD 0 := by
  induction xs generalizing p with
  | nil => simp [withPrev]
  | cons x xs ih =>
    intro d hd
    rw [withPrev, List.map_cons, List.mem_cons] at hd
    rcases hd with hd | hd
    · subst hd
      cases p with
      | none => simp [diffStep]
      | some q =>
        have hqx : rawLE q x := by
          have : List.Chain' rawLE (q :: x :: xs) := hc
          exact (List.chain'_cons.mp this).1
        rw [diffStep]
        cases hq : q.raw with
        | none => simp
        | some a =>
          cases hx : x.raw with
          | none => simp
          | some b =>
            have : a ≤ b := by
              rw [rawLE, hq, hx] at hqx
              simpa using hqx
            simp only [Option.getD_some]
            linarith
    · refine ih (some x) ?_ d hd
      cases p with
      | none => exact hc
      | some q => exact (List.chain'_cons.mp hc).2

theorem nondecFrac_of_mono (rows : List RainRow) (hc : List.Chain' rawLE rows)
    (hne : rows ≠ []) : nondecFrac rows = 1 := by
  have hall : ∀ b ∈ (rawDiffs rows).map (fun d => decide ((0 : ℚ) ≤ d.getD 0)), b = true := by
    intro b hb
    rw [List.mem_map] at hb
    obtain ⟨d, hd, rfl⟩ := hb
    have := rawDiffs_nonneg rows none (by simpa using hc) d (by simpa [rawDiffs] using hd)
    simpa using this
  rw [nondecFrac, count_true_of_all _ hall]
  have hlen : ((rawDiffs rows).map (fun d => decide ((0 : ℚ) ≤ d.getD 0))).length
      = rows.length := by
    simp [rawDiffs, withPrev_length]
  rw [hlen]
  have : (rows.length : ℚ) ≠ 0 := by
    simpa using List.length_pos.mpr hne |>.ne'
  exact div_self this

theorem getLast?_cons_getD (x : RainRow) (l : List RainRow) :
    (x :: l).getLast? = some (l.getLast?.getD x) := by
  induction l generalizing x with
  | nil => rfl
  | cons y ys ih =>
    rw [List.getLast?_cons_cons, ih y]
    rfl

theorem cumul_tail_sum (xs : List RainRow) (p : RainRow)
    (hp : ∀ r ∈ xs, r.raw.isSome) (hpp : p.raw.isSome)
    (hc : List.Chain rawLE p xs) :
    sumMm ((withPrev xs (some p)).map (fun pr => some (whereNonneg (diffStep pr))))
      = (xs.getLast?.getD p).raw.getD 0 - p.raw.getD 0 := by
  induction xs generalizing p with
  | nil => simp [withPrev, sumMm]
  | cons x xs ih =>
    rw [List.chain_cons] at hc
    obtain ⟨a, ha⟩ := Option.isSome_iff_exists.mp hpp
    obtain ⟨b, hb⟩ := Option.isSome_iff_exists.mp (hp x (List.mem_cons_self x xs))
    have hab : a ≤ b := by
      have := hc.1
      rw [rawLE, ha, hb] at this
      simpa using this
    have hstep : whereNonneg (diffStep (some p, x)) = b - a := by
      rw [diffStep, ha, hb, whereNonneg]
      rw [if_pos (by linarith)]
    have htail := ih x (fun r hr => hp r (List.mem_cons_of_mem _ hr))
      (by rw [hb]; rfl) hc.2
    rw [withPrev, List.map_cons]
    have hsum : ∀ (d : Option ℚ) (l : List (Option ℚ)),
        sumMm (d :: l) = d.getD 0 + sumMm l := by
      intro d l
      simp [sumMm]
    rw [hsum, hstep, htail]
    have hlast : ((x :: xs).getLast?.getD p) = xs.getLast?.getD x := by
      rw [getLast?_cons_getD]
      rfl
    rw [hlast, ha]
    simp only [hb, Option.getD_some]
    ring

/-- C5: for every time-sorted rain table with no rate column, all raw values present
and the raw counter non-decreasing (no resets), the computed interval values sum to
`last − first` of the raw counter (exactly, in `ℚ`). -/
theorem C5_conservation (rows : List RainRow) (hs : timeSorted rows)
    (hnr : ∀ r ∈ rows, r.rate = none) (hp : ∀ r ∈ rows, r.raw.isSome)
    (hc : List.Chain' rawLE rows) (a b : ℚ)
    (ha : rows.head?.bind (fun r => r.raw) = some a)
    (hb : rows.getLast?.bind (fun r => r.raw) = some b) :
    sumMm (rainToIntervalMm rows) = b - a := by
  cases rows with
  | nil => simp at ha
  | cons r0 rest =>
    have hne : (r0 :: rest : List RainRow) ≠ [] := by simp
    have hraw : ∃ r ∈ r0 :: rest, r.raw.isSome :=
      ⟨r0, List.mem_cons_self r0 rest, hp r0 (List.mem_cons_self r0 rest)⟩
    have hcond : 9 / 10 < nondecFrac (r0 :: rest) := by
      rw [nondecFrac_of_mono _ hc hne]
      norm_num
    rw [rainToIntervalMm_cumul _ hs hnr hraw hcond]
    have hr0a : r0.raw = some a := by simpa using ha
    have hcomp : cumulOut (r0 :: rest)
        = (withPrev (r0 :: rest) none).map (fun pr => some (whereNonneg (diffStep pr))) := by
      rw [cumulOut, rawDiffs, List.map_map]
      rfl
    rw [hcomp, withPrev, List.map_cons]
    have hsum : ∀ (d : Option ℚ) (l : List (Option ℚ)),
        sumMm (d :: l) = d.getD 0 + sumMm l := by
      intro d l
      simp [sumMm]
    rw [hsum]
    have htail := cumul_tail_sum rest r0
      (fun r hr => hp r (List.mem_cons_of_mem _ hr))
      (hp r0 (List.mem_cons_self r0 rest)) hc
    rw [htail]
    have hblast : (rest.getLast?.getD r0).raw = some b := by
      have := getLast?_cons_getD r0 rest
      rw [this] at hb
      simpa using hb
    rw [hblast, hr0a, diffStep]
    simp [whereNonneg]

/-- C5 witness: on the counter `[1, 2, 4]` the intervals sum to `4 − 1 = 3`. -/
theorem C5_witness :
    timeSorted cumulTable ∧ sumMm (rainToIntervalMm cumulTable) = 3 := by
  refine ⟨by decide, ?_⟩
  have h := C5_conservation cumulTable (by decide) (by decide) (by decide)
    (by norm_num [cumulTable, List.chain'_cons, List.chain'_singleton, rawLE])
    1 4 (by decide) (by decide)
  rw [h]
  norm_num

/-- C6: for every time-sorted rain table whose rate column has some non-missing value,
every row with a present rate gets interval millimeters `max(0, rate × Δt hours)`,
where the first row's delta is 0 — rate times delta, negatives clamped. -/
theorem C6_rate (rows : List RainRow) (hs : timeSorted rows)
    (hrate : ∃ r ∈ rows, r.rate.isSome) :
    ∀ (i : ℕ) (r : RainRow) (q : ℚ), rows[i]? = some r → r.rate = some q →
      (rainToIntervalMm rows)[i]? = some (some (max 0 (q * dtHoursAt rows i))) := by
  intro i r q hr hq
  rw [rainToIntervalMm_rate rows hs hrate, rateOut_getElem? rows i r hr, hq]
  rfl

/-- C6 witness: rate samples `[(t0, 0 mm/h), (t0+30min, 4 mm/h)]` give `4 × 0.5 = 2.0`
mm at the second row. -/
theorem C6_witness :
    timeSorted rateTable ∧ (rainToIntervalMm rateTable)[1]? = some (some 2) := by
  refine ⟨by decide, ?_⟩
  have h := C6_rate rateTable (by decide) (by decide) 1 ⟨1800, some 4, none⟩ 4
    (by decide) rfl
  rw [h]
  norm_num [dtHoursAt, rateTable]

/-- C10: in the rate branch every produced interval value is a present, non-negative
number, and a row whose rate is missing yields exactly 0 (the `fillna(0)` on the rate
column), never a missing value. -/
theorem C10_missing_rate (rows : List RainRow) (hs : timeSorted rows)
    (hrate : ∃ r ∈ rows, r.rate.isSome) :
    (∀ x ∈ rainToIntervalMm rows, ∃ q, x = some q ∧ 0 ≤ q)
    ∧ (∀ (i : ℕ) (r : RainRow), rows[i]? = some r → r.rate = none →
        (rainToIntervalMm rows)[i]? = some (some 0)) := by
  rw [rainToIntervalMm_rate rows hs hrate]
  constructor
  · intro x hx
    rw [rateOut, List.mem_map] at hx
    obtain ⟨pr, _, rfl⟩ := hx
    exact ⟨_, rfl, le_max_left 0 _⟩
  · intro i r hr hnone
    rw [rateOut_getElem? rows i r hr, hnone]
    simp

/-- C10 witness: a table with rates `[2 mm/h, missing]` gives interval value 0 (not a
missing value) at the missing-rate row. -/
theorem C10_witness :
    timeSorted rateGapTable ∧ (rainToIntervalMm rateGapTable)[1]? = some (some 0) := by
  refine ⟨by decide, ?_⟩
  exact (C10_missing_rate rateGapTable (by decide) (by decide)).2 1 ⟨1800, none, none⟩
    (by decide) rfl

theorem dedupKeepLast_sublist (l : List Reading) : (dedupKeepLast l).Sublist l := by
  induction l with
  | nil => exact List.Sublist.refl []
  | cons x xs ih =>
    rw [dedupKeepLast]
    split
    · exact ih.cons x
    · exact ih.cons₂ x

theorem mem_timesOf_dedupKeepLast (l : List Reading) (t : ℕ) :
    t ∈ timesOf (dedupKeepLast l) ↔ t ∈ timesOf l := by
  simp only [timesOf]
  induction l with
  | nil => exact Iff.rfl
  | cons x xs ih =>
    rw [dedupKeepLast]
    split
    · rename_i hdup
      rw [List.any_eq_true] at hdup
      obtain ⟨y, hy, hyt⟩ := hdup
      rw [beq_iff_eq] at hyt
      rw [ih, List.map_cons, List.mem_cons]
      constructor
      · exact Or.inr
      · rintro (rfl | h)
        · exact hyt ▸ List.mem_map_of_mem (fun r => r.time) hy
        · exact h
    · rw [List.map_cons, List.map_cons, List.mem_cons, List.mem_cons, ih]

theorem nodup_timesOf_dedupKeepLast (l : List Reading) :
    (timesOf (dedupKeepLast l)).Nodup := by
  simp only [timesOf]
  induction l with
  | nil => exact List.nodup_nil
  | cons x xs ih =>
    rw [dedupKeepLast]
    split
    · exact ih
    · rename_i hdup
      rw [List.map_cons, List.nodup_cons]
      refine ⟨fun hmem => ?_, ih⟩
      have hmem2 : x.time ∈ xs.map (fun r => r.time) := by
        have h2 := mem_timesOf_dedupKeepLast xs x.time
        simp only [timesOf] at h2
        exact h2.mp hmem
      obtain ⟨y, hy, hyt⟩ := List.mem_map.mp hmem2
      exact hdup (List.any_eq_true.mpr ⟨y, hy, beq_iff_eq.mpr hyt⟩)

theorem filter_dedupKeepLast (l : List Reading) (t : ℕ) :
    (dedupKeepLast l).filter (fun r => r.time == t)
      = (l.filter (fun r => r.time == t)).getLast?.toList := by
  induction l with
  | nil => rfl
  | cons x xs ih =>
    rw [dedupKeepLast]
    split
    · rename_i hdup
      rw [List.any_eq_true] at hdup
      obtain ⟨y, hy, hyt⟩ := hdup
      rw [beq_iff_eq] at hyt
      rw [ih, List.filter_cons]
      cases hxt : (x.time == t) with
      | true =>
        rw [beq_iff_eq] at hxt
        have hne : xs.filter (fun r => r.time == t) ≠ [] := by
          rw [ne_eq, List.filter_eq_nil_iff]
          push_neg
          exact ⟨y, hy, by simp [hyt, hxt]⟩
        obtain ⟨z, zs, hz⟩ := List.exists_cons_of_ne_nil hne
        rw [if_pos rfl, hz, List.getLast?_cons_cons]
      | false =>
        rw [if_neg (by simp)]
    · rename_i hdup
      rw [List.filter_cons, List.filter_cons, ih]
      cases hxt : (x.time == t) with
      | true =>
        rw [if_pos rfl, if_pos rfl]
        have hnil : xs.filter (fun r => r.time == t) = [] := by
          rw [List.filter_eq_nil_iff]
          intro z hz hzt
          rw [beq_iff_eq] at hxt hzt
          exact hdup (List.any_eq_true.mpr ⟨z, hz, beq_iff_eq.mpr (hzt.trans hxt.symm)⟩)
        rw [hnil]
        simp
      | false =>
        rw [if_neg (by simp), if_neg (by simp)]

theorem filter_orderedInsert_sameKey (t : ℕ) (p : Reading → Bool)
    (hkey : ∀ x, p x = true → x.time = t) (a : Reading) (l : List Reading) :
    (List.orderedInsert readLE a l).filter p = ((a :: l).filter p) := by
  induction l with
  | nil => rfl
  | cons b l ih =>
    rw [List.orderedInsert]
    split
    · rfl
    · rename_i hab
      have hba : b.time < a.time := Nat.lt_of_not_le (fun h => hab h)
      simp only [List.filter_cons, ih]
      cases hpa : p a with
      | true =>
        cases hpb : p b with
        | true => exact absurd ((hkey b hpb).trans (hkey a hpa).symm) (Nat.ne_of_lt hba)
        | false => simp
      | false =>
        cases hpb : p b with
        | true => simp
        | false => simp

theorem filter_sortReadings_sameKey (t : ℕ) (p : Reading → Bool)
    (hkey : ∀ x, p x = true → x.time = t) (l : List Reading) :
    (sortReadings l).filter p = l.filter p := by
  induction l with
  | nil => rfl
  | cons x xs ih =>
    rw [sortReadings, List.insertionSort, filter_orderedInsert_sameKey t p hkey,
      List.filter_cons, List.filter_cons]
    rw [sortReadings] at ih
    rw [ih]

theorem filter_of_nodup_times (batch : List Reading) (hnd : (timesOf batch).Nodup)
    (r : Reading) (hr : r ∈ batch) :
    batch.filter (fun s => s.time == r.time) = [r] := by
  induction batch with
  | nil => cases hr
  | cons b bs ih =>
    rw [timesOf, List.map_cons, List.nodup_cons] at hnd
    rcases List.mem_cons.mp hr with rfl | hrbs
    · rw [List.filter_cons, if_pos (by simp)]
      have hnil : bs.filter (fun s => s.time == r.time) = [] := by
        rw [List.filter_eq_nil_iff]
        intro y hy hyt
        rw [beq_iff_eq] at hyt
        exact hnd.1 (hyt ▸ List.mem_map_of_mem (fun s => s.time) hy)
      rw [hnil]
    · have hbr : ¬ ((b.time == r.time) = true) := by
        simp only [beq_iff_eq]
        intro he
        exact hnd.1 (he.symm ▸ List.mem_map_of_mem (fun s => s.time) hrbs)
      rw [List.filter_cons, if_neg hbr]
      exact ih hnd.2 hrbs

/-- C3: merging a batch into the archive (concat, sort ascending by time, drop
duplicate timestamps keeping the last occurrence) yields a time-sorted archive with
at most one reading per timestamp, losing no timestamp; whenever a timestamp occurs
in the batch (whose readings carry distinct timestamps, as the minute-aligned merge
guarantees), the retained reading is exactly the batch's reading — last-write-wins —
and the reported dedup count is `(rows before + batch rows) − rows after`. -/
theorem C3_last_write_wins (master batch : List Reading)
    (hb : (timesOf batch).Nodup) :
    List.Sorted readLE (mergeMaster master batch)
    ∧ (timesOf (mergeMaster master batch)).Nodup
    ∧ (∀ t : ℕ, t ∈ timesOf (master ++ batch) ↔ t ∈ timesOf (mergeMaster master batch))
    ∧ (∀ r ∈ batch, ∀ s ∈ mergeMaster master batch, s.time = r.time → s = r)
    ∧ dedupRemoved master batch
        = master.length + batch.length - (mergeMaster master batch).length := by
  refine ⟨?_, ?_, ?_, ?_, rfl⟩
  · exact List.Pairwise.sublist (dedupKeepLast_sublist _)
      (List.sorted_insertionSort readLE _)
  · exact nodup_timesOf_dedupKeepLast _
  · intro t
    rw [mergeMaster, mem_timesOf_dedupKeepLast]
    unfold timesOf sortReadings
    exact ⟨fun h => ((List.perm_insertionSort readLE _).map _).symm.mem_iff.mp h,
      fun h => ((List.perm_insertionSort readLE _).map _).mem_iff.mp h⟩
  · intro r hr s hs hst
    have hmem : s ∈ (mergeMaster master batch).filter (fun x => x.time == r.time) :=
      List.mem_filter.mpr ⟨hs, beq_iff_eq.mpr hst⟩
    rw [mergeMaster, filter_dedupKeepLast,
      filter_sortReadings_sameKey r.time _ (fun x hx => beq_iff_eq.mp hx),
      List.filter_append, filter_of_nodup_times batch hb r hr,
      List.getLast?_append] at hmem
    simpa using hmem

/-- C3 witness: a concrete collision between a one-row archive and a one-row batch
sharing timestamp 0. -/
theorem C3_witness :
    (timesOf batch3).Nodup ∧ List.Sorted readLE (mergeMaster master3 batch3) :=
  ⟨by decide, (C3_last_write_wins master3 batch3 (by decide)).1⟩

theorem filter_dedupKeepFirstAux (l : List MetRow) (seen : List ℕ) (t : ℕ) :
    (dedupKeepFirstAux seen l).filter (fun r => r.time == t)
      = if t ∈ seen then [] else (l.filter (fun r => r.time == t)).head?.toList := by
  induction l generalizing seen with
  | nil =>
    rw [dedupKeepFirstAux]
    split <;> rfl
  | cons x xs ih =>
    rw [dedupKeepFirstAux]
    split
    · rename_i hx
      rw [ih seen, List.filter_cons]
      by_cases hts : t ∈ seen
      · rw [if_pos hts, if_pos hts]
      · rw [if_neg hts, if_neg hts]
        have hxt : ¬ ((x.time == t) = true) := by
          simp only [beq_iff_eq]
          rintro rfl
          exact hts hx
        rw [if_neg hxt]
    · rename_i hx
      rw [List.filter_cons, ih (x.time :: seen), List.filter_cons]
      cases hxt : (x.time == t) with
      | true =>
        rw [beq_iff_eq] at hxt
        have h1 : t ∈ x.time :: seen := List.mem_cons.mpr (Or.inl hxt.symm)
        have h2 : t ∉ seen := fun h => hx (hxt.symm ▸ h)
        rw [if_pos rfl, if_pos h1, if_neg h2, if_pos rfl]
        rfl
      | false =>
        have hne : t ≠ x.time := by
          intro h
          rw [← h] at hxt
          simp at hxt
        have h3 : t ∈ x.time :: seen ↔ t ∈ seen := by
          rw [List.mem_cons]
          exact ⟨fun h => h.resolve_left hne, Or.inr⟩
        simp only [Bool.false_eq_true, if_false]
        by_cases hts : t ∈ seen
        · rw [if_pos (h3.mpr hts), if_pos hts]
        · rw [if_neg (fun h => hts (h3.mp h)), if_neg hts]

/-- C9: before minute alignment, the intake rows of one kind are concatenated in
filename-sorted order and deduplicated by exact raw timestamp keeping the FIRST
occurrence: every retained row is the first row carrying its timestamp in the
filename-sorted concatenation, so when two files share a raw timestamp the
earlier-sorted file's row wins and the later one is discarded. -/
theorem C9_first_wins (files : List IntakeFile) (t : ℕ) (s : MetRow)
    (hs : s ∈ ingestConcat files) (ht : s.time = t) :
    ((catRows files).filter (fun r => r.time == t)).head? = some s
    ∧ s ∈ catRows files := by
  have hs2 : s ∈ dedupKeepFirstAux [] (catRows files) :=
    ((List.perm_insertionSort metLE _).mem_iff).mp hs
  have hmem : s ∈ (dedupKeepFirstAux [] (catRows files)).filter (fun r => r.time == t) :=
    List.mem_filter.mpr ⟨hs2, beq_iff_eq.mpr ht⟩
  rw [filter_dedupKeepFirstAux, if_neg (List.not_mem_nil t)] at hmem
  have hhead : ((catRows files).filter (fun r => r.time == t)).head? = some s := by
    cases hh : ((catRows files).filter (fun r => r.time == t)).head? with
    | none =>
      rw [hh] at hmem
      cases hmem
    | some z =>
      rw [hh] at hmem
      have hz : s = z := by simpa using hmem
      rw [hz]
  refine ⟨hhead, ?_⟩
  have hmem2 : s ∈ (catRows files).filter (fun r => r.time == t) := by
    rcases hf : (catRows files).filter (fun r => r.time == t) with _ | ⟨z, zs⟩
    · rw [hf] at hhead
      cases hhead
    · rw [hf] at hhead
      rw [List.head?_cons, Option.some.injEq] at hhead
      rw [hf, ← hhead]
      exact List.mem_cons_self z zs
  exact List.mem_of_mem_filter hmem2

/-- C9 witness: two files sharing raw timestamp 100, listed out of filename order;
the row of the earlier-sorted file (temperature 1) is the retained one. -/
theorem C9_witness :
    ((catRows files9).filter (fun r => r.time == 100)).head?
      = some ⟨100, some 1, none, none, none⟩ :=
  (C9_first_wins files9 100 ⟨100, some 1, none, none, none⟩ (by decide) rfl).1

/-- C4: re-running the pipeline with an empty intake directory leaves the persisted
archive untouched and reproduces every monthly extract and the manifest of the
previous run exactly, whatever the snow ledger or snow CSV hold — the outputs are a
deterministic function of the unchanged archive. -/
theorem C4_empty_intake_idempotent (a : List Reading) (s s2 : List SnowRec)
    (b : Option (List Reading)) (sc sc2 : Option (List SnowRec)) :
    (runPipeline (runPipeline a s b sc).archive s2 none sc2).archive
        = (runPipeline a s b sc).archive
    ∧ (runPipeline (runPipeline a s b sc).archive s2 none sc2).months
        = (runPipeline a s b sc).months
    ∧ (runPipeline (runPipeline a s b sc).archive s2 none sc2).manifest
        = (runPipeline a s b sc).manifest :=
  ⟨rfl, rfl, rfl⟩

theorem pickMaxWind_none_of_all (g : List MetRow) (h : ∀ s ∈ g, s.wind = none) :
    pickMaxWind g = none := by
  induction g with
  | nil => rfl
  | cons r rs ih =>
    simp only [pickMaxWind, h r (List.mem_cons_self r rs)]
    exact ih (fun s hs => h s (List.mem_cons_of_mem r hs))

theorem pickMaxWind_spec (g : List MetRow) :
    (∀ s ∈ g, s.wind = none) ∨
    (∃ m, pickMaxWind g = some m ∧ m ∈ g ∧ m.wind.isSome = true ∧
      ∀ s ∈ g, ∀ w : ℚ, s.wind = some w → w ≤ m.wind.getD 0) := by
  induction g with
  | nil => exact Or.inl (by simp)
  | cons r rs ih =>
    cases hw : r.wind with
    | none =>
      rcases ih with hnone | ⟨m, hm, hmem, hsome, hbnd⟩
      · refine Or.inl ?_
        intro s hsm
        rcases List.mem_cons.mp hsm with rfl | h
        · exact hw
        · exact hnone s h
      · refine Or.inr ⟨m, ?_, List.mem_cons_of_mem r hmem, hsome, ?_⟩
        · simp only [pickMaxWind, hw]
          exact hm
        · intro s hsm w hsw
          rcases List.mem_cons.mp hsm with rfl | h
          · rw [hw] at hsw
            cases hsw
          · exact hbnd s h w hsw
    | some w =>
      rcases ih with hnone | ⟨m, hm, hmem, hsome, hbnd⟩
      · have hrs : pickMaxWind rs = none := pickMaxWind_none_of_all rs hnone
        refine Or.inr ⟨r, ?_, List.mem_cons_self r rs, by rw [hw]; rfl, ?_⟩
        · simp only [pickMaxWind, hw, hrs]
        · intro s hsm w' hsw
          rcases List.mem_cons.mp hsm with rfl | h
          · rw [hsw]
            simp
          · rw [hnone s h] at hsw
            cases hsw
      · by_cases hlt : w < m.wind.getD 0
        · refine Or.inr ⟨m, ?_, List.mem_cons_of_mem r hmem, hsome, ?_⟩
          · simp only [pickMaxWind, hw, hm, if_pos hlt]
          · intro s hsm w' hsw
            rcases List.mem_cons.mp hsm with rfl | h
            · have hww : w' = w := Option.some.inj (hsw.symm.trans hw)
              exact hww ▸ le_of_lt hlt
            · exact hbnd s h w' hsw
        · refine Or.inr ⟨r, ?_, List.mem_cons_self r rs, by rw [hw]; rfl, ?_⟩
          · simp only [pickMaxWind, hw, hm, if_neg hlt]
          · intro s hsm w' hsw
            have hrw : r.wind.getD 0 = w := by rw [hw]; rfl
            rcases List.mem_cons.mp hsm with rfl | h
            · rw [hsw]
              rfl
            · have h1 := hbnd s h w' hsw
              have h2 : m.wind.getD 0 ≤ w := le_of_not_lt hlt
              rw [hrw]
              exact le_trans h1 h2

theorem lastOf_mem (g : List MetRow) (h : g ≠ []) : lastOf g ∈ g := by
  rw [lastOf, List.getLast?_eq_getLast g h]
  exact List.getLast_mem h

theorem lastOf_cons_of_ne_nil (x : MetRow) (xs : List MetRow) (h : xs ≠ []) :
    lastOf (x :: xs) = lastOf xs := by
  rcases xs with _ | ⟨y, ys⟩
  · exact absurd rfl h
  · rw [lastOf, lastOf, List.getLast?_cons_cons]

theorem le_lastOf_of_sorted (g : List MetRow) (hg : List.Sorted metLE g) :
    ∀ s ∈ g, s.time ≤ (lastOf g).time := by
  induction g with
  | nil =>
    intro s hsm
    cases hsm
  | cons x xs ih =>
    intro s hsm
    rcases List.mem_cons.mp hsm with rfl | h
    · rcases hx : xs with _ | ⟨y, ys⟩
      · simp [lastOf]
      · rw [hx] at hg
        rw [lastOf_cons_of_ne_nil s (y :: ys) (by simp)]
        have hmem := lastOf_mem (y :: ys) (by simp)
        exact (List.pairwise_cons.mp hg).1 (lastOf (y :: ys)) hmem
    · have hne : xs ≠ [] := List.ne_nil_of_mem h
      rw [lastOf_cons_of_ne_nil x xs hne]
      exact ih (List.pairwise_cons.mp hg).2 s h

/-- C7: for a time-sorted meteorological stream, every minute key with at least one
present wind value gets exactly the record whose wind/heading pair comes from a
max-wind row of that minute (all present wind speeds of the minute are bounded by
it) and whose other fields come from the time-maximal (last) row of the minute, with
the minute key — the floored timestamp — as its time. -/
theorem C7_minute_alignment (rows : List MetRow) (hs : List.Sorted metLE rows)
    (k : ℕ) (hk : k ∈ minuteKeys rows)
    (hw : ∃ r ∈ minuteGroup rows k, r.wind.isSome = true) :
    ∃ a ∈ alignMet rows, a.time = k
      ∧ (∃ m ∈ minuteGroup rows k, m.wind.isSome = true
          ∧ a.wind = m.wind ∧ a.heading = m.heading
          ∧ ∀ s ∈ minuteGroup rows k, ∀ w : ℚ, s.wind = some w → w ≤ m.wind.getD 0)
      ∧ (∃ l ∈ minuteGroup rows k, a.temp = l.temp ∧ a.hum = l.hum
          ∧ ∀ s ∈ minuteGroup rows k, s.time ≤ l.time) := by
  have hsort : sortMet rows = rows := List.Sorted.insertionSort_eq hs
  obtain ⟨r0, hr0, hr0w⟩ := hw
  have hany : rows.any (fun r => r.wind.isSome) = true :=
    List.any_eq_true.mpr ⟨r0, List.mem_of_mem_filter hr0, hr0w⟩
  have halign : alignMet rows = (minuteKeys rows).map (mkAlignedWind rows) := by
    simp only [alignMet]
    rw [hsort, if_pos hany]
  rcases pickMaxWind_spec (minuteGroup rows k) with hnone | ⟨m, hm, hmmem, hmsome, hbnd⟩
  · rw [hnone r0 hr0] at hr0w
    cases hr0w
  · have hgne : minuteGroup rows k ≠ [] := List.ne_nil_of_mem hmmem
    have hgsorted : List.Sorted metLE (minuteGroup rows k) :=
      List.Pairwise.sublist (List.filter_sublist _) hs
    have ha : mkAlignedWind rows k
        = ⟨k, (lastOf (minuteGroup rows k)).temp, (lastOf (minuteGroup rows k)).hum,
           m.wind, m.heading⟩ := by
      simp only [mkAlignedWind, hm]
    refine ⟨mkAlignedWind rows k, ?_, ?_, ?_, ?_⟩
    · rw [halign]
      exact List.mem_map_of_mem _ hk
    · rw [ha]
    · exact ⟨m, hmmem, hmsome, by rw [ha], by rw [ha], hbnd⟩
    · exact ⟨lastOf (minuteGroup rows k), lastOf_mem _ hgne, by rw [ha], by rw [ha],
        le_lastOf_of_sorted _ hgsorted⟩

/-- C7 witness: rows at 12:00:05 and 12:00:40 with wind speeds 3 and 7 collapse to
the single minute key 12:00:00, with wind 7 and heading from the 7-reading and the
other fields from the last row. -/
theorem C7_witness :
    alignMet metExample = [⟨43200, some 2, none, some 7, some 180⟩]
    ∧ ∃ a ∈ alignMet metExample, a.time = 43200
      ∧ (∃ m ∈ minuteGroup metExample 43200, m.wind.isSome = true
          ∧ a.wind = m.wind ∧ a.heading = m.heading
          ∧ ∀ s ∈ minuteGroup metExample 43200, ∀ w : ℚ, s.wind = some w
              → w ≤ m.wind.getD 0)
      ∧ (∃ l ∈ minuteGroup metExample 43200, a.temp = l.temp ∧ a.hum = l.hum
          ∧ ∀ s ∈ minuteGroup metExample 43200, s.time ≤ l.time) :=
  ⟨by decide, C7_minute_alignment metExample (by decide) 43200 (by decide) (by decide)⟩

theorem findCol_single_isSome (cols : List (List Char)) (kw : List Char) :
    (findCol cols [kw]).isSome = true
      ↔ ∃ c ∈ cols, containsKw (lowerName c) kw = true := by
  rw [findCol, List.find?_isSome]
  simp

/-- C8 counterexample: the header set `{time, temperature}` contains a column
literally named `time` (lower case), so the claim demands success; but the code's
direct test is the case-sensitive `"Time" not in df.columns`, and the fallback
requires a date column as well, so the classifier fails with `MissingTimeColumn`. -/
theorem C8_counterexample :
    (∃ c ∈ [hdrTimeLower, hdrTemperature], lowerName c = kwTime)
    ∧ locateTimeColumn [hdrTimeLower, hdrTemperature] = none := by
  constructor
  · exact ⟨hdrTimeLower, by simp, by decide⟩
  · decide

/-- C8 amended: the classifier succeeds exactly when the headers contain the exact,
case-sensitive column name `Time`, or else both some header whose lower-cased name
contains `date` and some header whose lower-cased name contains `time` as substrings;
otherwise it fails with `MissingTimeColumn`. -/
theorem C8_amended (cols : List (List Char)) :
    (locateTimeColumn cols).isSome = true ↔
      (timeColName ∈ cols ∨
        ((∃ c ∈ cols, containsKw (lowerName c) kwDate = true)
          ∧ (∃ c ∈ cols, containsKw (lowerName c) kwTime = true))) := by
  rw [locateTimeColumn]
  split
  · rename_i h
    simp only [Option.isSome_some, true_iff]
    exact Or.inl h
  · rename_i h
    have hdate := findCol_single_isSome cols kwDate
    have htime := findCol_single_isSome cols kwTime
    rcases hd : findCol cols [kwDate] with _ | d
    · rw [hd] at hdate
      simp only [Option.isSome_none, Bool.false_eq_true, false_iff] at hdate
      rcases ht : findCol cols [kwTime] with _ | t
      · simp [h, hdate]
      · simp [h, hdate]
    · rw [hd] at hdate
      rcases ht : findCol cols [kwTime] with _ | t
      · rw [ht] at htime
        simp only [Option.isSome_none, Bool.false_eq_true, false_iff] at htime
        simp [h, htime]
      · rw [ht] at htime
        simp only [Option.isSome_some, true_iff] at hdate htime
        simp [hdate, htime]

end Vaerstasjon
